import Mathlib

/-
Verification of the core data model and check logic of the vale prose linter.

The embedding follows the Go sources:
  * core (File, Alert, Selector, AddAlert, UpdateComments, QueryComments,
    SortedAlerts, ByPosition) from the unnamed core file, and
  * check (makeAlert, checkOccurrence, checkSubstitution, validateDefinition,
    addCheck) from check/check.go.

Go strings are modelled as Lean strings; where a Go standard-library string
operation is needed (strings.Split, strings.TrimSpace) it is re-implemented
structurally over the character list so that concrete instances evaluate in
the kernel.  Go maps are modelled as association lists with lookup/update
operations.  Go slice indexing that can panic is modelled with Option: a
`none` result marks an input on which the Go code panics at run time.

Helper functions of the core package that are not part of the provided
sources (AllStringsInSlice, initialPosition, Substitute, FormatMessage,
CheckPOS, ToSentence) are either modelled from the specification (marked
`Modelled from the spec:`) or abstracted as function parameters, so the
theorems below hold for every behaviour of the missing code.
-/

namespace Vale

/-! ## Selectors -/

/-- A Selector represents a named section of text (core source: `Selector`
with a single string field `Value`, e.g. `text.comment.line.py`). -/
structure Selector where
  Value : String
deriving Repr, DecidableEq

/-- Models Go `strings.Split(s, sep)` for a one-character separator:
splits on every occurrence, keeping empty fields, so that `""` yields
`[""]`.  The accumulator holds the current field reversed. -/
def splitOnCharAux (sep : Char) (acc : List Char) : List Char → List String
  | [] => [String.mk acc.reverse]
  | c :: rest =>
    if c = sep then String.mk acc.reverse :: splitOnCharAux sep [] rest
    else splitOnCharAux sep (c :: acc) rest

/-- Sections splits a Selector into its parts, as in the core source:
`strings.Split(s.Value, ".")`. -/
def Selector.Sections (s : Selector) : List String :=
  splitOnCharAux ('.') [] s.Value.data

/-- Modelled from the spec: `AllStringsInSlice` (core/util.go, not under
src/) as used by `Selector.Contains`.  The spec states "`A.Contains(B)` iff
every token of B appears in A in order"; this is the greedy in-order scan
deciding whether the first list is an (order-preserving, possibly
non-contiguous) subsequence of the second. -/
def allInOrder : List String → List String → Bool
  | [], _ => true
  | _ :: _, [] => false
  | b :: bs, a :: as =>
    if b = a then allInOrder bs as else allInOrder (b :: bs) as

/-- Contains determines if all of sel's sections are in s (core source:
`AllStringsInSlice(sel.Sections(), s.Sections())`, with the missing helper
modelled from the spec as `allInOrder`). -/
def Selector.Contains (s sel : Selector) : Bool :=
  allInOrder sel.Sections s.Sections

/-- Equal determines if sel == s (core source). -/
def Selector.Equal (s sel : Selector) : Bool :=
  s.Value = sel.Value

/-! ## Alerts and Files -/

/-- An Action represents a possible solution to an Alert (core source). -/
structure Action where
  Name : String := ""
  Params : List String := []
deriving Repr, DecidableEq

/-- An Alert represents a potential error in prose (core source).  The Go
field `Span []int` always holds the two entries `[begin, end]` and is
modelled as a pair; `Line` and the span entries are Go `int`, modelled as
`Int`. -/
structure Alert where
  Action : Action := {}
  Check : String := ""
  Description : String := ""
  Line : Int := 0
  Link : String := ""
  Message : String := ""
  Severity : String := ""
  Span : Int × Int := (0, 0)
  Match : String := ""
  Hide : Bool := false
deriving Repr, DecidableEq

/-- Models a read from a Go `map[string]α` represented as an association
list: the most recently set binding for the key wins. -/
def getVal {α : Type} : List (String × α) → String → Option α
  | [], _ => none
  | (k, v) :: rest, key => if k = key then some v else getVal rest key

/-- Models a write to a Go `map[string]α`: replace the binding if the key
is present, otherwise add it. -/
def setVal {α : Type} : List (String × α) → String → α → List (String × α)
  | [], key, v => [(key, v)]
  | (k, v') :: rest, key, v =>
    if k = key then (key, v) :: rest else (k, v') :: setVal rest key v

/-- Models a Go boolean map read `m[k]`, which yields `false` when the key
is absent. -/
def getBool (m : List (String × Bool)) (k : String) : Bool :=
  (getVal m k).getD false

/-- A File represents a linted text file (core source).  Only the fields
that participate in the modelled operations are carried; the remaining Go
fields (Content, Lines, Path, Format, Scanner, the fuzzy matcher, word
counts, etc.) feed only the localizer and the scoping pipeline, which the
theorems below abstract over. -/
structure File where
  Alerts : List Alert := []
  ChkToCtx : List (String × String) := []
  Comments : List (String × Bool) := []
  history : List (Int × Int × String) := []
deriving Repr, DecidableEq

/-! ## Comment control -/

/-- Character class of the Go regexp `\w`: ASCII letters, digits and
underscore. -/
def isWordChar (c : Char) : Bool :=
  (c ≥ ('a') && c ≤ ('z')) || (c ≥ ('A') && c ≤ ('Z')) ||
  (c ≥ ('0') && c ≤ ('9')) || c = ('_')

/-- Full-match semantics of the group `(\w+.\w+)` of the core comment
regexp `^vale (\w+.\w+) = (YES|NO)$` (the `.` is an unescaped wildcard):
the list must decompose as a nonempty run of word characters, one
wildcard character, and a nonempty run of word characters.  `j` ranges
over the position of the wildcard; Go's RE2 `.` (the `s` flag is not
set) matches any character except newline, so the character at `j` must
not be `\n`. -/
def ruleIdMatch (l : List Char) : Bool :=
  (List.range l.length).any fun j =>
    decide (1 ≤ j) && decide (j + 1 < l.length) &&
    decide (l.getD j (' ') ≠ ('\n')) &&
    (l.take j).all isWordChar && (l.drop (j + 1)).all isWordChar

/-- Submatch extraction for the anchored comment regexp
`^vale (\w+.\w+) = (YES|NO)$` (core source `commentControlRE`).  Because
the pattern is anchored at both ends and the trailing alternative
`YES`/`NO` is a literal at the very end, a matching string decomposes
uniquely as `vale ` ++ group1 ++ ` = ` ++ group2, which is computed
directly. -/
def commentMatch (comment : String) : Option (String × String) :=
  let cs := comment.data
  if cs.take 5 = ("vale ").data then
    let body := cs.drop 5
    if body.length ≥ 6 && body.drop (body.length - 6) = (" = YES").data then
      let mid := body.take (body.length - 6)
      if ruleIdMatch mid then some (String.mk mid, "YES") else none
    else if body.length ≥ 5 && body.drop (body.length - 5) = (" = NO").data then
      let mid := body.take (body.length - 5)
      if ruleIdMatch mid then some (String.mk mid, "NO") else none
    else none
  else none

/-- UpdateComments sets a new status based on comment (core source): the
literal `vale off` / `vale on` flip the global flag, and a string matching
the control regexp records `group2 == "NO"` under the rule name of
group1. -/
def File.UpdateComments (f : File) (comment : String) : File :=
  if comment = "vale off" then
    { f with Comments := setVal f.Comments ("off") true }
  else if comment = "vale on" then
    { f with Comments := setVal f.Comments ("off") false }
  else
    match commentMatch comment with
    | some (rule, val) =>
      { f with Comments := setVal f.Comments rule (val = "NO") }
    | none => f

/-- QueryComments checks if there has been an in-text comment for this
check (core source): when the global `off` flag is unset, a recorded
status for the check is returned; in every other case the value of the
`off` flag itself is returned. -/
def File.QueryComments (f : File) (check : String) : Bool :=
  if !(getBool f.Comments ("off")) then
    match getVal f.Comments check with
    | some status => status
    | none => getBool f.Comments ("off")
  else getBool f.Comments ("off")

/-! ## Alert localization and deduplication (AddAlert) -/

/-- Resolution of the context argument at the top of AddAlert (core
source): a context previously stored in `ChkToCtx` for this check
replaces the supplied one. -/
def resolveCtx (f : File) (check ctx : String) : String :=
  match getVal f.ChkToCtx check with
  | some old => old
  | none => ctx

/-- Type of the localizer `File.FindLoc(ctx, s, m, pad, count, loc)`
returning the line and span.  Its body depends on `initialPosition`
(core/util.go, not under src/) and on the external fuzzy line matcher, and
it reads only fields of the File (Format, Simple, Lines, matcher) that
AddAlert never writes, so it is abstracted as an arbitrary fixed function
of its explicit arguments; the theorems below hold for every localizer. -/
abbrev FindLocFn :=
  String → String → String → Int → Int → Int × Int → Int × (Int × Int)

/-- AddAlert calculates the in-text location of an Alert and adds it to a
File (core source).  `substitute` abstracts `Substitute` (core/util.go,
not under src/), whose result is only stored in `ChkToCtx`.  The Go dedup
key is the string `itoa(line) + "-" + itoa(span0) + "-" + check`; since
the recorded span start is positive (all-digit itoa) this string is in
bijection with the triple `(line, span0, check)`, which is stored
directly in `history`. -/
def File.AddAlert (findLoc : FindLocFn) (substitute : String → String → String)
    (f : File) (a : Alert) (ctx txt : String) (lines pad : Int) : File :=
  let ctx' := resolveCtx f a.Check ctx
  let res := findLoc ctx' txt a.Match pad lines a.Span
  let a' := { a with Line := res.1, Span := res.2 }
  if 0 < a'.Span.1 then
    let f' := { f with
      ChkToCtx := setVal f.ChkToCtx a'.Check (substitute ctx' a'.Match) }
    if a'.Hide = false then
      let entry : Int × Int × String := (a'.Line, a'.Span.1, a'.Check)
      if entry ∈ f'.history then f'
      else { f' with Alerts := f'.Alerts ++ [a'], history := entry :: f'.history }
    else f'
  else f

/-- Dedup key of an alert: its localized line, span start and check name. -/
def tripleOf (a : Alert) : Int × Int × String :=
  (a.Line, a.Span.1, a.Check)

/-- Arguments of one AddAlert invocation. -/
structure CallArgs where
  a : Alert
  ctx : String
  txt : String
  lines : Int
  pad : Int

/-- Folds a sequence of AddAlert calls over a file. -/
def runCalls (findLoc : FindLocFn) (substitute : String → String → String) :
    File → List CallArgs → File
  | f, [] => f
  | f, c :: rest =>
    runCalls findLoc substitute
      (File.AddAlert findLoc substitute f c.a c.ctx c.txt c.lines c.pad) rest

/-! ## Sorting alerts (ByPosition, SortedAlerts) -/

/-- ByPosition.Less (core source): order Alerts by line, breaking ties by
span start. -/
def byPositionLess (x y : Alert) : Bool :=
  if x.Line ≠ y.Line then x.Line < y.Line else x.Span.1 < y.Span.1

/-- Complement of the Less relation, i.e. the nondecreasing test the Go
sort contract guarantees on the output (`¬ Less(out[j], out[i])` for
`i < j`). -/
def byPositionLe (x y : Alert) : Bool :=
  !(byPositionLess y x)

/-- SortedAlerts returns all of f's alerts sorted by line and column (core
source: `sort.Sort(ByPosition(f.Alerts))`).  Go's `sort.Sort` is a
standard-library routine whose contract is: the result is a permutation
of the input that is nondecreasing with respect to Less.  It is modelled
by mergeSort with the complement of Less, which realizes exactly that
contract (the claims proved below depend only on the contract, not on
which tie-order the unstable Go sort picks). -/
def File.SortedAlerts (f : File) : List Alert :=
  f.Alerts.mergeSort byPositionLe

/-! ## The occurrence check (check/check.go) -/

/-- Common rule metadata (Go `Definition`).  The Go struct is declared in
a check-package file not under src/; the fields are those used by
check/check.go. -/
structure Definition where
  Name : String := ""
  Extends : String := ""
  Level : String := ""
  Link : String := ""
  Message : String := ""
  Description : String := ""
  Scope : String := ""
  Code : Bool := false
  Limit : Int := 0
  Action : Action := {}
deriving Repr, DecidableEq

/-- Models Go `txt[b:e]` on the scope text (byte slicing; the scope is
modelled as its character list, with match locations as indices into
it). -/
def sliceStr (txt : List Char) (b e : Nat) : String :=
  String.mk ((txt.take e).drop b)

/-- makeAlert (check/check.go): build an alert for a match location.  The
parameter `fm` abstracts `core.FormatMessage` (core/util.go, not under
src/), the printf-style template filler used by `formatMessages`. -/
def makeAlert (fm : String → List String → String) (chk : Definition)
    (loc : Nat × Nat) (txt : List Char) : Alert :=
  let mtch := sliceStr txt loc.1 loc.2
  { Check := chk.Name, Severity := chk.Level,
    Span := ((loc.1 : Int), (loc.2 : Int)), Link := chk.Link, Match := mtch,
    Action := chk.Action, Message := fm chk.Message [mtch],
    Description := fm chk.Description [mtch] }

/-- Occurrence rule state (Go `Occurrence`, declared in a check-package
file not under src/; fields as used by check/check.go). -/
structure Occurrence extends Definition where
  Max : Int := 0
  Min : Int := 0
  Token : String := ""
  Ignorecase : Bool := false
deriving Repr, DecidableEq

/-- checkOccurrence (check/check.go).  `locs` is the value of
`r.FindAllStringIndex(txt, -1)`: the locations of all matches of the
compiled token pattern in the scope (the regexp engine is an external
collaborator, so its output is taken as input here).  When the count is
out of bounds the Go code builds the alert from `locs[0]`; on an empty
match list that indexing panics (index out of range), modelled as
`none`. -/
def checkOccurrence (fm : String → List String → String) (txt : List Char)
    (chk : Occurrence) (locs : List (Nat × Nat)) : Option (List Alert) :=
  let occurrences : Int := locs.length
  if occurrences > chk.Max ∨ occurrences < chk.Min then
    match locs with
    | [] => none
    | l0 :: _ =>
      let a := makeAlert fm chk.toDefinition l0 txt
      some [{ a with Message := chk.Message, Description := chk.Description }]
  else some []

/-! ## Manifest validation (addCheck / validateDefinition) -/

/-- A decoded YAML value as seen through Go's `map[string]interface{}`:
either a string, or a value of some other dynamic type (on which the Go
string type assertion `.(string)` panics). -/
inductive YVal
  | str (s : String)
  | other
deriving Repr, DecidableEq

/-- A decoded rule manifest: the generic key/value map produced by
`yaml.Unmarshal` into `map[string]interface{}`. -/
abbrev Manifest := List (String × YVal)

/-- Outcome of a Go call returning `error`: nil error, non-nil error, or a
runtime panic. -/
inductive GoOutcome
  | ok
  | err (msg : String)
  | panics
deriving Repr, DecidableEq

/-- True exactly when the outcome is a returned (non-nil) error. -/
def GoOutcome.isErr : GoOutcome → Bool
  | .err _ => true
  | _ => false

/-- Modelled from the spec: the ten extension-point names.  The Go slice
`extensionPoints` is declared in a check-package file not under src/;
the spec enumerates the ten rule kinds of section 4.1. -/
def extensionPoints : List String :=
  ["existence", "substitution", "occurrence", "repetition", "consistency",
   "conditional", "capitalization", "readability", "spelling", "sequence"]

/-- validateDefinition (check/check.go): require the key `extends` (whose
value must be a member of the extension points) and the key `message`.
The membership test applies the Go type assertion `point.(string)`,
which panics when the present value is not a string. -/
def validateDefinition (generic : Manifest) (name : String) : GoOutcome :=
  match getVal generic ("extends") with
  | none => .err (name ++ ": missing extension point!")
  | some YVal.other => .panics
  | some (YVal.str point) =>
    if extensionPoints.contains point then
      match getVal generic ("message") with
      | none => .err (name ++ ": missing message!")
      | some _ => .ok
    else .err (name ++ ": unknown extension point!")

/-- addCheck (check/check.go).  Decoding the manifest bytes is done by the
external YAML library; its outcome is this function's input — `none`
models a decode error, `some m` the decoded generic map.  After
validation the Go code sets defaults for name, level and scope (which
cannot fail; `Config.RuleToLevel` only overrides the stored level),
dispatches to the kind-specific builder (whose errors are only logged,
never returned), and evaluates `generic["scope"].(string)` — a type
assertion that panics when a present scope value is not a string.  The
exported `AddCheck` simply delegates here. -/
def addCheck (decoded : Option Manifest) (chkName : String) : GoOutcome :=
  match decoded with
  | none => .err (chkName ++ ": yaml decode error")
  | some generic =>
    match validateDefinition generic chkName with
    | .ok =>
      match getVal generic ("scope") with
      | some YVal.other => .panics
      | _ => .ok
    | e => e

/-- The error condition exactly as claim C6 states it: the manifest bytes
fail YAML decoding, the key `extends` is absent, the `extends` value is
not one of the ten extension-point names, or the key `message` is
absent. -/
def claimErrCondition (decoded : Option Manifest) : Bool :=
  match decoded with
  | none => true
  | some generic =>
    (match getVal generic ("extends") with
     | none => true
     | some (YVal.str s) => !(extensionPoints.contains s)
     | some YVal.other => true)
    || (getVal generic ("message")).isNone

/-! ## The substitution check (check/check.go) -/

/-- Substitution rule state (Go `Substitution`, declared in a
check-package file not under src/; fields as used by check/check.go). -/
structure Substitution extends Definition where
  POS : String := ""
  Ignorecase : Bool := false
  Nonword : Bool := false
  Swap : List (String × String) := []
deriving Repr, DecidableEq

/-- Models Go `strings.TrimSpace`: remove leading and trailing whitespace
(the Unicode space class is approximated by ASCII whitespace, which is
what occurs in the texts considered here). -/
def trimSpace (s : String) : String :=
  String.mk
    (((s.data.dropWhile Char.isWhitespace).reverse.dropWhile
        Char.isWhitespace).reverse)

/-- Loop state of checkSubstitution: in Go the `pos` flag and `chk.Action`
are declared outside the submatch loop and persist across iterations, as
does the accumulated alert list. -/
structure SubState where
  pos : Bool
  action : Action
  alerts : List Alert
deriving Repr, DecidableEq

/-- One capture group of one submatch of
`r.FindAllStringSubmatchIndex(txt, -1)`: `none` models the index pair
`(-1, -1)` (the group did not participate in the match), `some (b, e)`
its location. -/
abbrev GroupLoc := Option (Nat × Nat)

/-- Body of the submatch loop of checkSubstitution (check/check.go) for
capture group `g` (0-based: Go visits group `g` at flat even index
`idx = 2*(g+1)` and reads `repl[(idx/2)-1] = repl[g]`).  `checkPOS`
abstracts `core.CheckPOS` and `toSentence` abstracts `core.ToSentence`
(core files not under src/).  A missing replacement entry models the Go
panic on out-of-range slice indexing. -/
def subStep (fm : String → List String → String)
    (toSentence : List String → String → String)
    (checkPOS : Nat × Nat → String → List Char → Bool)
    (txt : List Char) (chk : Substitution) (repl : List String)
    (st : SubState) (g : Nat) (loc : GroupLoc) : Option SubState :=
  match loc with
  | none => some st
  | some (b, e) =>
    match repl.get? g with
    | none => none
    | some expected =>
      let observed := trimSpace (sliceStr txt b e)
      if expected ≠ observed then
        let pos := if chk.POS ≠ "" then checkPOS (b, e) chk.POS txt else st.pos
        let actExp : Action × String :=
          if st.action.Name = "replace" ∧ st.action.Params = [] then
            let ps := splitOnCharAux ('|') [] expected.data
            ({ Name := st.action.Name, Params := ps }, toSentence ps ("or"))
          else (st.action, expected)
        let a : Alert :=
          { Check := chk.Name, Severity := chk.Level,
            Span := ((b : Int), (e : Int)), Link := chk.Link, Hide := pos,
            Match := observed, Action := actExp.1,
            Message := fm chk.Message [actExp.2, observed],
            Description := fm chk.Description [actExp.2, observed] }
        some { pos := pos, action := actExp.1, alerts := st.alerts ++ [a] }
      else some st

/-- Inner loop of checkSubstitution over the capture groups of one
submatch, starting at group index `g`. -/
def subGroups (fm : String → List String → String)
    (toSentence : List String → String → String)
    (checkPOS : Nat × Nat → String → List Char → Bool)
    (txt : List Char) (chk : Substitution) (repl : List String)
    (st : SubState) (g : Nat) : List GroupLoc → Option SubState
  | [] => some st
  | loc :: rest =>
    match subStep fm toSentence checkPOS txt chk repl st g loc with
    | none => none
    | some st' => subGroups fm toSentence checkPOS txt chk repl st' (g + 1) rest

/-- Outer loop of checkSubstitution over all submatches. -/
def subMats (fm : String → List String → String)
    (toSentence : List String → String → String)
    (checkPOS : Nat × Nat → String → List Char → Bool)
    (txt : List Char) (chk : Substitution) (repl : List String)
    (st : SubState) : List (List GroupLoc) → Option SubState
  | [] => some st
  | sm :: rest =>
    match subGroups fm toSentence checkPOS txt chk repl st 0 sm with
    | none => none
    | some st' => subMats fm toSentence checkPOS txt chk repl st' rest

/-- checkSubstitution (check/check.go).  `submatches` is the value of
`r.FindAllStringSubmatchIndex(txt, -1)` restricted to the capture
groups (the regexp engine is an external collaborator, so its output is
taken as input).  The Go early return when `r.MatchString(txt)` fails
coincides with an empty submatch list, over which the loop is vacuous,
so it needs no separate modelling. -/
def checkSubstitution (fm : String → List String → String)
    (toSentence : List String → String → String)
    (checkPOS : Nat × Nat → String → List Char → Bool)
    (txt : List Char) (chk : Substitution)
    (submatches : List (List GroupLoc)) (repl : List String) :
    Option (List Alert) :=
  (subMats fm toSentence checkPOS txt chk repl
      { pos := false, action := chk.Action, alerts := [] } submatches).map
    SubState.alerts

/-- Certificate that an alert arises from a capture-group match whose
whitespace-trimmed text differs from that group's configured
replacement. -/
def FromDifferingMatch (txt : List Char) (submatches : List (List GroupLoc))
    (repl : List String) (a : Alert) : Prop :=
  ∃ sm ∈ submatches, ∃ g b e exp, sm.get? g = some (some (b, e)) ∧
    repl.get? g = some exp ∧ a.Span = ((b : Int), (e : Int)) ∧
    trimSpace (sliceStr txt b e) ≠ exp

/-- Statement that every capture-group match has trimmed text equal to its
configured replacement. -/
def AllMatchesAgree (txt : List Char) (submatches : List (List GroupLoc))
    (repl : List String) : Prop :=
  ∀ sm ∈ submatches, ∀ g b e, sm.get? g = some (some (b, e)) →
    ∀ exp, repl.get? g = some exp → trimSpace (sliceStr txt b e) = exp

/-- Witness alert for C10: the alert produced for the differing match
`smart phone` against the replacement `smartphone`. -/
def subWitnessAlert : Alert :=
  { Check := "Test.S", Severity := "error", Span := (4, 15),
    Match := "smart phone", Message := "m", Description := "" }

/-- Correctness of the greedy in-order scan: it succeeds exactly on
(order-preserving) sublists. -/
theorem allInOrder_iff_sublist :
    ∀ (as bs : List String), allInOrder bs as = true ↔ bs.Sublist as := by
  intro as
  induction as with
  | nil =>
    intro bs
    cases bs with
    | nil => simp [allInOrder]
    | cons b bs => simp [allInOrder]
  | cons a as ih =>
    intro bs
    cases bs with
    | nil => simp [allInOrder, List.nil_sublist]
    | cons b bs =>
      by_cases hba : b = a
      · subst hba
        rw [allInOrder, if_pos rfl]
        constructor
        · intro h
          exact List.Sublist.cons₂ b ((ih bs).mp h)
        · intro h
          cases h with
          | cons _ h' =>
            exact (ih bs).mpr ((List.sublist_cons_self b bs).trans h')
          | cons₂ _ h' => exact (ih bs).mpr h'
      · rw [allInOrder, if_neg hba]
        constructor
        · intro h
          exact List.Sublist.cons a ((ih (b :: bs)).mp h)
        · intro h
          cases h with
          | cons _ h' => exact (ih (b :: bs)).mpr h'
          | cons₂ _ h' => exact absurd rfl hba

theorem getVal_setVal_same {α : Type} (m : List (String × α)) (k : String)
    (v : α) : getVal (setVal m k v) k = some v := by
  induction m with
  | nil => simp [getVal, setVal]
  | cons p rest ih =>
    obtain ⟨k', v'⟩ := p
    by_cases h : k' = k
    · simp [getVal, setVal, h]
    · simp [getVal, setVal, h, ih]

theorem getVal_setVal_other {α : Type} (m : List (String × α)) (k k' : String)
    (v : α) (hne : k' ≠ k) : getVal (setVal m k v) k' = getVal m k' := by
  have hkk : k ≠ k' := Ne.symm hne
  induction m with
  | nil => simp [getVal, setVal, hkk]
  | cons p rest ih =>
    obtain ⟨k0, v0⟩ := p
    by_cases h : k0 = k
    · subst h
      simp [getVal, setVal, hkk]
    · simp only [setVal, if_neg h, getVal]
      by_cases h' : k0 = k'
      · simp [h']
      · simp [h', ih]

/-- Case analysis of one AddAlert call: either the alert list and the
history are unchanged, or the located span start is positive, the alert
is not hidden, its triple is new, the localized alert is appended and its
triple is recorded. -/
theorem addAlert_spec (findLoc : FindLocFn)
    (substitute : String → String → String) (f : File) (a : Alert)
    (ctx txt : String) (lines pad : Int) :
    ((File.AddAlert findLoc substitute f a ctx txt lines pad).Alerts = f.Alerts
      ∧ (File.AddAlert findLoc substitute f a ctx txt lines pad).history = f.history)
    ∨ (0 < (findLoc (resolveCtx f a.Check ctx) txt a.Match pad lines a.Span).2.1
      ∧ a.Hide = false
      ∧ ((findLoc (resolveCtx f a.Check ctx) txt a.Match pad lines a.Span).1,
         (findLoc (resolveCtx f a.Check ctx) txt a.Match pad lines a.Span).2.1,
         a.Check) ∉ f.history
      ∧ (File.AddAlert findLoc substitute f a ctx txt lines pad).Alerts
          = f.Alerts ++ [{ a with
              Line := (findLoc (resolveCtx f a.Check ctx) txt a.Match pad lines a.Span).1,
              Span := (findLoc (resolveCtx f a.Check ctx) txt a.Match pad lines a.Span).2 }]
      ∧ (File.AddAlert findLoc substitute f a ctx txt lines pad).history
          = ((findLoc (resolveCtx f a.Check ctx) txt a.Match pad lines a.Span).1,
             (findLoc (resolveCtx f a.Check ctx) txt a.Match pad lines a.Span).2.1,
             a.Check) :: f.history) := by
  unfold File.AddAlert
  dsimp only
  split_ifs
  all_goals first
    | exact Or.inl ⟨rfl, rfl⟩
    | exact Or.inr ⟨by assumption, by assumption, by assumption, rfl, rfl⟩

/-- One AddAlert call preserves the deduplication invariant: alert triples
are pairwise distinct and every recorded alert's triple is in `history`. -/
theorem addAlert_preserves_inv (findLoc : FindLocFn)
    (substitute : String → String → String) (f : File) (a : Alert)
    (ctx txt : String) (lines pad : Int)
    (hD : List.Pairwise (fun x y => tripleOf x ≠ tripleOf y) f.Alerts)
    (hH : ∀ x ∈ f.Alerts, tripleOf x ∈ f.history) :
    List.Pairwise (fun x y => tripleOf x ≠ tripleOf y)
        (File.AddAlert findLoc substitute f a ctx txt lines pad).Alerts
    ∧ ∀ x ∈ (File.AddAlert findLoc substitute f a ctx txt lines pad).Alerts,
        tripleOf x ∈ (File.AddAlert findLoc substitute f a ctx txt lines pad).history := by
  rcases addAlert_spec findLoc substitute f a ctx txt lines pad with
    ⟨hA, hHist⟩ | ⟨hs, hh, hnm, hA, hHist⟩
  · rw [hA, hHist]
    exact ⟨hD, hH⟩
  · constructor
    · rw [hA, List.pairwise_append]
      refine ⟨hD, List.pairwise_singleton _ _, ?_⟩
      intro x hx b hb
      rw [List.mem_singleton] at hb
      subst hb
      intro hEq
      apply hnm
      have hmem := hH x hx
      rw [hEq] at hmem
      exact hmem
    · intro x hx
      rw [hA, List.mem_append] at hx
      rw [hHist]
      cases hx with
      | inl h => exact List.mem_cons_of_mem _ (hH x h)
      | inr h =>
        rw [List.mem_singleton] at h
        subst h
        exact List.mem_cons_self _ _

theorem runCalls_preserves_inv (findLoc : FindLocFn)
    (substitute : String → String → String) (calls : List CallArgs) :
    ∀ (f : File),
      List.Pairwise (fun x y => tripleOf x ≠ tripleOf y) f.Alerts →
      (∀ x ∈ f.Alerts, tripleOf x ∈ f.history) →
      List.Pairwise (fun x y => tripleOf x ≠ tripleOf y)
        (runCalls findLoc substitute f calls).Alerts := by
  induction calls with
  | nil => intro f hD hH; exact hD
  | cons c rest ih =>
    intro f hD hH
    obtain ⟨hD', hH'⟩ :=
      addAlert_preserves_inv findLoc substitute f c.a c.ctx c.txt c.lines c.pad hD hH
    exact ih _ hD' hH'

/-- C3: starting from a file with no alerts and no recorded history, after
any sequence of AddAlert calls no two alerts share the same
`(Line, Span[0], Check)` triple; and a single AddAlert call whose
localized line, span start and check name repeat an entry already in the
file's history leaves `File.Alerts` unchanged. -/
theorem add_alert_dedup (findLoc : FindLocFn)
    (substitute : String → String → String) (calls : List CallArgs)
    (f0 : File) (h1 : f0.Alerts = []) (_h2 : f0.history = []) :
    List.Pairwise (fun x y => tripleOf x ≠ tripleOf y)
        (runCalls findLoc substitute f0 calls).Alerts
    ∧ ∀ (f : File) (a : Alert) (ctx txt : String) (lines pad : Int),
        ((findLoc (resolveCtx f a.Check ctx) txt a.Match pad lines a.Span).1,
         (findLoc (resolveCtx f a.Check ctx) txt a.Match pad lines a.Span).2.1,
         a.Check) ∈ f.history →
        (File.AddAlert findLoc substitute f a ctx txt lines pad).Alerts = f.Alerts := by
  constructor
  · apply runCalls_preserves_inv
    · rw [h1]; exact List.Pairwise.nil
    · intro x hx
      rw [h1] at hx
      exact absurd hx (List.not_mem_nil x)
  · intro f a ctx txt lines pad hmem
    rcases addAlert_spec findLoc substitute f a ctx txt lines pad with
      ⟨hA, _⟩ | ⟨_, _, hnm, _, _⟩
    · exact hA
    · exact absurd hmem hnm

/-- Witness for C3: a concrete localizer placing every match at line 1,
span (1,2); two calls with the same check name are deduplicated, and a
repeat call on a file whose history already holds the triple leaves the
alert list unchanged. -/
theorem add_alert_dedup_witness :
    List.Pairwise (fun x y => tripleOf x ≠ tripleOf y)
        (runCalls (fun _ _ _ _ _ _ => (1, (1, 2))) (fun _ _ => "#") {}
          [{ a := { Check := "Style.Rule" }, ctx := "c", txt := "t",
             lines := 1, pad := 0 },
           { a := { Check := "Style.Rule" }, ctx := "c", txt := "t",
             lines := 1, pad := 0 }]).Alerts
    ∧ (File.AddAlert (fun _ _ _ _ _ _ => (1, (1, 2))) (fun _ _ => "#")
        { history := [(1, 1, "Style.Rule")] } { Check := "Style.Rule" }
        ("c") ("t") 1 0).Alerts =
      (File.mk [] [] [] [(1, 1, "Style.Rule")]).Alerts :=
  ⟨(add_alert_dedup (fun _ _ _ _ _ _ => (1, (1, 2))) (fun _ _ => "#")
      [{ a := { Check := "Style.Rule" }, ctx := "c", txt := "t",
         lines := 1, pad := 0 },
       { a := { Check := "Style.Rule" }, ctx := "c", txt := "t",
         lines := 1, pad := 0 }] {} rfl rfl).1,
   (add_alert_dedup (fun _ _ _ _ _ _ => (1, (1, 2))) (fun _ _ => "#") []
      {} rfl rfl).2 { history := [(1, 1, "Style.Rule")] }
      { Check := "Style.Rule" } ("c") ("t") 1 0 (by decide)⟩

/-- C5: AddAlert never appends an alert whose Hide flag is set, and never
appends an alert whose localized span start is not positive; in both
cases the file's alert list is exactly what it was before the call. -/
theorem add_alert_hide_and_unlocated (findLoc : FindLocFn)
    (substitute : String → String → String) (f : File) (a : Alert)
    (ctx txt : String) (lines pad : Int) :
    (∀ x ∈ (File.AddAlert findLoc substitute f a ctx txt lines pad).Alerts,
        x ∈ f.Alerts ∨ (x.Hide = false ∧ 0 < x.Span.1))
    ∧ (a.Hide = true →
        (File.AddAlert findLoc substitute f a ctx txt lines pad).Alerts = f.Alerts)
    ∧ ((findLoc (resolveCtx f a.Check ctx) txt a.Match pad lines a.Span).2.1 ≤ 0 →
        (File.AddAlert findLoc substitute f a ctx txt lines pad).Alerts = f.Alerts) := by
  refine ⟨?_, ?_, ?_⟩
  · intro x hx
    rcases addAlert_spec findLoc substitute f a ctx txt lines pad with
      ⟨hA, _⟩ | ⟨hs, hh, _, hA, _⟩
    · rw [hA] at hx
      exact Or.inl hx
    · rw [hA, List.mem_append] at hx
      cases hx with
      | inl h => exact Or.inl h
      | inr h =>
        rw [List.mem_singleton] at h
        subst h
        exact Or.inr ⟨hh, hs⟩
  · intro hHide
    rcases addAlert_spec findLoc substitute f a ctx txt lines pad with
      ⟨hA, _⟩ | ⟨_, hh, _, _, _⟩
    · exact hA
    · rw [hHide] at hh
      exact absurd hh (by decide)
  · intro hspan
    rcases addAlert_spec findLoc substitute f a ctx txt lines pad with
      ⟨hA, _⟩ | ⟨hs, _, _, _, _⟩
    · exact hA
    · exact absurd hs (not_lt.mpr hspan)

/-- Witness for C5: a hidden alert is not appended, and an alert whose
localizer places the span start at 0 is not appended. -/
theorem add_alert_hide_and_unlocated_witness :
    (File.AddAlert (fun _ _ _ _ _ _ => (1, (1, 2))) (fun _ _ => "#") {}
        { Check := "Style.Rule", Hide := true } ("c") ("t") 1 0).Alerts = []
    ∧ (File.AddAlert (fun _ _ _ _ _ _ => (1, (0, 0))) (fun _ _ => "#") {}
        { Check := "Style.Rule" } ("c") ("t") 1 0).Alerts = [] :=
  ⟨(add_alert_hide_and_unlocated (fun _ _ _ _ _ _ => (1, (1, 2)))
      (fun _ _ => "#") {} { Check := "Style.Rule", Hide := true }
      ("c") ("t") 1 0).2.1 rfl,
   (add_alert_hide_and_unlocated (fun _ _ _ _ _ _ => (1, (0, 0)))
      (fun _ _ => "#") {} { Check := "Style.Rule" }
      ("c") ("t") 1 0).2.2 (by decide)⟩

theorem byPositionLe_iff (x y : Alert) :
    byPositionLe x y = true ↔
      (x.Line < y.Line ∨ (x.Line = y.Line ∧ x.Span.1 ≤ y.Span.1)) := by
  simp only [byPositionLe, byPositionLess, Bool.not_eq_true']
  by_cases h : y.Line = x.Line
  · simp [h]
  · simp [h]
    omega

theorem byPositionLe_trans (x y z : Alert) (h1 : byPositionLe x y = true)
    (h2 : byPositionLe y z = true) : byPositionLe x z = true := by
  rw [byPositionLe_iff] at h1 h2 ⊢
  omega

theorem byPositionLe_total (x y : Alert) :
    (byPositionLe x y || byPositionLe y x) = true := by
  rw [Bool.or_eq_true, byPositionLe_iff, byPositionLe_iff]
  omega

/-- C7: SortedAlerts returns the file's alerts ordered by
`(Line, Span[0])` — for any two positions i < j of the result, either the
earlier alert is on a strictly smaller line, or the lines are equal and
its span start is not larger — and the returned list is a permutation
(equal multiset) of the accumulated `File.Alerts`. -/
theorem sorted_alerts_ordered_and_permutation (f : File) :
    List.Pairwise
        (fun x y => x.Line < y.Line ∨ (x.Line = y.Line ∧ x.Span.1 ≤ y.Span.1))
        f.SortedAlerts
    ∧ f.SortedAlerts.Perm f.Alerts := by
  constructor
  · have hs := @List.sorted_mergeSort Alert byPositionLe byPositionLe_trans
      byPositionLe_total f.Alerts
    exact hs.imp fun h => (byPositionLe_iff _ _).mp h
  · exact List.mergeSort_perm f.Alerts byPositionLe

/-- C1 (code bug): on a scope with zero matches of the token and
`Min > 0`, checkOccurrence panics (Go indexes `locs[0]` on an empty match
list) instead of returning the alert the claim requires — first conjunct.
The remaining conjuncts show the behaviour the claim describes on
non-empty match lists: three matches against `Max = 2` produce exactly
one alert whose span is the first match location, and an in-bounds count
produces no alert. -/
theorem check_occurrence_zero_matches_panics :
    checkOccurrence (fun m _ => m) ("bar and bar").data
        { Name := "Test.O", Level := "error", Message := "msg",
          Token := "foo", Max := 2, Min := 1 } [] = none
    ∧ checkOccurrence (fun m _ => m) ("foo and foo and foo").data
        { Name := "Test.O", Level := "error", Message := "msg",
          Token := "foo", Max := 2, Min := 1 }
        [(0, 3), (8, 11), (16, 19)] =
      some [{ Check := "Test.O", Severity := "error", Span := (0, 3),
              Match := "foo", Message := "msg", Description := "" }]
    ∧ checkOccurrence (fun m _ => m) ("foo and foo").data
        { Name := "Test.O", Level := "error", Message := "msg",
          Token := "foo", Max := 2, Min := 1 } [(0, 3), (8, 11)] =
      some [] := by
  refine ⟨by decide, by decide, by decide⟩

/-- C4 counterexample: the claim as stated says that after
`UpdateComments("vale Rule.Name = YES")` the query reports the rule
enabled (`false`); on a file whose global `off` flag is set the code
reports `true` instead (QueryComments falls through to the `off` value),
so the claim fails at this concrete input. -/
theorem comment_yes_claim_counterexample :
    (File.UpdateComments { Comments := [("off", true)] }
        ("vale Rule.Name = YES")).QueryComments ("Rule.Name") ≠ false := by
  decide

/-- C4 (amended): `vale off` sets the global suppression flag and
`vale on` clears it; after `vale Rule.Name = NO` the rule is reported
suppressed (true) unconditionally; after `vale Rule.Name = YES` the rule
is reported enabled (false) provided the global off flag is not set (the
global flag takes precedence otherwise, cf. C9); and any comment string
other than `vale off`, `vale on` or a string matching the control regexp
leaves the comment state unchanged. -/
theorem comment_control_updates (f : File) :
    getBool (f.UpdateComments ("vale off")).Comments ("off") = true
    ∧ getBool (f.UpdateComments ("vale on")).Comments ("off") = false
    ∧ (f.UpdateComments ("vale Rule.Name = NO")).QueryComments ("Rule.Name") = true
    ∧ (getBool f.Comments ("off") = false →
        (f.UpdateComments ("vale Rule.Name = YES")).QueryComments
          ("Rule.Name") = false)
    ∧ (∀ s : String, s ≠ "vale off" → s ≠ "vale on" → commentMatch s = none →
        f.UpdateComments s = f) := by
  have hmNO : commentMatch ("vale Rule.Name = NO") = some ("Rule.Name", "NO") := by
    decide
  have hmYES : commentMatch ("vale Rule.Name = YES") = some ("Rule.Name", "YES") := by
    decide
  have hne : ("off" : String) ≠ "Rule.Name" := by decide
  refine ⟨?_, ?_, ?_, ?_, ?_⟩
  · simp [File.UpdateComments, getBool, getVal_setVal_same]
  · simp [File.UpdateComments, getBool, getVal_setVal_same]
  · rw [File.UpdateComments, if_neg (by decide), if_neg (by decide), hmNO]
    simp only [File.QueryComments, getBool, getVal_setVal_same,
      getVal_setVal_other _ _ _ _ hne]
    cases hoff : (getVal f.Comments ("off")).getD false <;> simp
  · intro hoff
    rw [File.UpdateComments, if_neg (by decide), if_neg (by decide), hmYES]
    simp only [File.QueryComments, getBool, getVal_setVal_same,
      getVal_setVal_other _ _ _ _ hne]
    simp only [getBool] at hoff
    simp [hoff]
  · intro s h1 h2 h3
    simp [File.UpdateComments, h1, h2, h3]

/-- Witness for C4 at a fresh file: after `vale Rule.Name = YES` the rule
is reported enabled, and the unrelated comment string `hello` leaves the
file unchanged. -/
theorem comment_control_updates_witness :
    (File.UpdateComments { Comments := [] }
        ("vale Rule.Name = YES")).QueryComments ("Rule.Name") = false
    ∧ File.UpdateComments { Comments := [] } ("hello") =
        { Comments := ([] : List (String × Bool)) } :=
  ⟨(comment_control_updates { Comments := [] }).2.2.2.1 (by decide),
   (comment_control_updates { Comments := [] }).2.2.2.2 ("hello")
     (by decide) (by decide) (by decide)⟩

/-- C9: while the global off flag is set (`Comments["off"] == true`),
QueryComments returns true (suppressed) for every check name, regardless
of any per-rule toggle recorded in the file. -/
theorem query_comments_global_off_precedence :
    ∀ (f : File) (check : String), getBool f.Comments ("off") = true →
      f.QueryComments check = true := by
  intro f check hoff
  simp [File.QueryComments, hoff]

/-- Witness for C9: a file whose off flag is set and which has recorded
`vale Rule.Name = YES` (status false, i.e. enabled) still reports the
rule suppressed. -/
theorem query_comments_global_off_precedence_witness :
    File.QueryComments { Comments := [("off", true), ("Rule.Name", false)] }
      ("Rule.Name") = true :=
  query_comments_global_off_precedence _ ("Rule.Name") (by decide)

/-- C2: for all selectors A and B, `A.Contains(B)` returns true iff every
dotted token of B appears among the tokens of A in the same order as in B
(i.e. B's section list is an order-preserving sublist of A's); in
particular, when every token of B occurs in A but in a different order
(here B = `line.text` against A = `text.line`), Contains returns false. -/
theorem selector_contains_iff_tokens_in_order :
    (∀ A B : Selector, A.Contains B = true ↔ B.Sections.Sublist A.Sections)
    ∧ Selector.Contains ⟨"text.line"⟩ ⟨"line.text"⟩ = false := by
  constructor
  · intro A B
    exact allInOrder_iff_sublist A.Sections B.Sections
  · decide

/-- C8: selector containment is transitive: if `A.Contains(B)` and
`B.Contains(C)` then `A.Contains(C)`. -/
theorem selector_contains_transitive :
    ∀ A B C : Selector, A.Contains B = true → B.Contains C = true →
      A.Contains C = true := by
  intro A B C hAB hBC
  have h1 := (allInOrder_iff_sublist A.Sections B.Sections).mp hAB
  have h2 := (allInOrder_iff_sublist B.Sections C.Sections).mp hBC
  exact (allInOrder_iff_sublist A.Sections C.Sections).mpr (h2.trans h1)

/-- Witness for C8 at concrete selectors `text.comment.line.py`,
`text.line` and `line`. -/
theorem selector_contains_transitive_witness :
    Selector.Contains ⟨"text.comment.line.py"⟩ ⟨"line"⟩ = true :=
  selector_contains_transitive ⟨"text.comment.line.py"⟩ ⟨"text.line"⟩ ⟨"line"⟩
    (by decide) (by decide)

/-- C6 counterexample: a manifest whose `extends` value is present but not
a string (hence not one of the ten extension-point names) satisfies the
claim's error condition, yet addCheck does not return an error — the Go
type assertion in validateDefinition panics instead, so the claimed
equivalence fails at this input. -/
theorem add_check_claim_counterexample :
    (addCheck (some [("extends", YVal.other), ("message", YVal.str ("m"))])
        ("Style.Rule")).isErr = false
    ∧ claimErrCondition
        (some [("extends", YVal.other), ("message", YVal.str ("m"))]) = true
    ∧ addCheck (some [("extends", YVal.other), ("message", YVal.str ("m"))])
        ("Style.Rule") = GoOutcome.panics := by
  refine ⟨by decide, by decide, by decide⟩

/-- C6 (amended): provided every present `extends` value is a string (a
non-string value makes the Go type assertion panic instead — see the
counterexample), addCheck (and the exported AddCheck, which delegates to
it) returns an error iff the YAML decode failed, `extends` is absent,
the `extends` string is not one of the ten extension-point names, or
`message` is absent; in particular a manifest containing unrecognized
top-level keys is not rejected for that reason. -/
theorem add_check_error_iff (decoded : Option Manifest) (chkName : String)
    (h : ∀ m, decoded = some m → ∀ v, getVal m ("extends") = some v →
      ∃ s, v = YVal.str s) :
    (addCheck decoded chkName).isErr = true ↔
      claimErrCondition decoded = true := by
  cases decoded with
  | none => simp [addCheck, claimErrCondition, GoOutcome.isErr]
  | some m =>
    cases hx : getVal m ("extends") with
    | none =>
      simp [addCheck, validateDefinition, claimErrCondition, hx, GoOutcome.isErr]
    | some v =>
      obtain ⟨s, rfl⟩ := h m rfl v hx
      by_cases hs : s ∈ extensionPoints
      · cases hmsg : getVal m ("message") with
        | none =>
          simp [addCheck, validateDefinition, claimErrCondition, hx, hs, hmsg,
            GoOutcome.isErr]
        | some w =>
          cases hsc : getVal m ("scope") with
          | none =>
            simp [addCheck, validateDefinition, claimErrCondition, hx, hs,
              hmsg, hsc, GoOutcome.isErr]
          | some u =>
            cases u <;>
              simp [addCheck, validateDefinition, claimErrCondition, hx, hs,
                hmsg, hsc, GoOutcome.isErr]
      · simp [addCheck, validateDefinition, claimErrCondition, hx, hs,
          GoOutcome.isErr]

/-- Witness for C6: a well-formed manifest carrying an unrecognized
top-level key is not rejected. -/
theorem add_check_error_iff_witness :
    (addCheck (some [("extends", YVal.str ("existence")),
        ("message", YVal.str ("m")), ("custom_key", YVal.other)])
      ("Style.Rule")).isErr = false := by
  have h := add_check_error_iff
    (some [("extends", YVal.str ("existence")), ("message", YVal.str ("m")),
      ("custom_key", YVal.other)]) ("Style.Rule")
    (by
      intro m hm v hv
      cases hm
      simp [getVal] at hv
      exact ⟨_, hv.symm⟩)
  cases hE : (addCheck (some [("extends", YVal.str ("existence")),
      ("message", YVal.str ("m")), ("custom_key", YVal.other)])
    ("Style.Rule")).isErr with
  | false => rfl
  | true => exact absurd (h.mp hE) (by decide)

theorem subStep_alerts (fm : String → List String → String)
    (toSentence : List String → String → String)
    (checkPOS : Nat × Nat → String → List Char → Bool)
    (txt : List Char) (chk : Substitution) (repl : List String)
    (st : SubState) (g : Nat) (loc : GroupLoc) (st' : SubState)
    (h : subStep fm toSentence checkPOS txt chk repl st g loc = some st') :
    st'.alerts = st.alerts
    ∨ ∃ b e exp, loc = some (b, e) ∧ repl.get? g = some exp ∧
        trimSpace (sliceStr txt b e) ≠ exp ∧
        ∃ a, st'.alerts = st.alerts ++ [a] ∧ a.Span = ((b : Int), (e : Int)) := by
  cases loc with
  | none =>
    rw [subStep] at h
    cases h
    exact Or.inl rfl
  | some be =>
    obtain ⟨b, e⟩ := be
    rw [subStep] at h
    cases hr : repl.get? g with
    | none => rw [hr] at h; cases h
    | some expected =>
      rw [hr] at h
      dsimp only at h
      by_cases hne : expected ≠ trimSpace (sliceStr txt b e)
      · rw [if_pos hne] at h
        cases h
        exact Or.inr ⟨b, e, expected, rfl, rfl, fun hEq => hne hEq.symm,
          _, rfl, rfl⟩
      · rw [if_neg hne] at h
        cases h
        exact Or.inl rfl

theorem subGroups_alerts (fm : String → List String → String)
    (toSentence : List String → String → String)
    (checkPOS : Nat × Nat → String → List Char → Bool)
    (txt : List Char) (chk : Substitution) (repl : List String) :
    ∀ (locs : List GroupLoc) (st : SubState) (g : Nat) (st' : SubState),
      subGroups fm toSentence checkPOS txt chk repl st g locs = some st' →
      ∀ a ∈ st'.alerts, a ∈ st.alerts
        ∨ ∃ j b e exp, locs.get? j = some (some (b, e)) ∧
            repl.get? (g + j) = some exp ∧ a.Span = ((b : Int), (e : Int)) ∧
            trimSpace (sliceStr txt b e) ≠ exp := by
  intro locs
  induction locs with
  | nil =>
    intro st g st' h a ha
    rw [subGroups] at h
    cases h
    exact Or.inl ha
  | cons loc rest ih =>
    intro st g st' h a ha
    rw [subGroups] at h
    cases hstep : subStep fm toSentence checkPOS txt chk repl st g loc with
    | none => rw [hstep] at h; cases h
    | some st1 =>
      rw [hstep] at h
      dsimp only at h
      rcases ih st1 (g + 1) st' h a ha with hmem | ⟨j, b, e, exp, hj, hrep, hsp, hne⟩
      · rcases subStep_alerts fm toSentence checkPOS txt chk repl st g loc st1
          hstep with heq | ⟨b, e, exp, hloc, hrep, hne, a0, hA, hsp⟩
        · rw [heq] at hmem
          exact Or.inl hmem
        · rw [hA, List.mem_append] at hmem
          cases hmem with
          | inl hl => exact Or.inl hl
          | inr hr =>
            rw [List.mem_singleton] at hr
            subst hr
            refine Or.inr ⟨0, b, e, exp, ?_, ?_, hsp, hne⟩
            · rw [hloc]; rfl
            · rw [Nat.add_zero]; exact hrep
      · refine Or.inr ⟨j + 1, b, e, exp, hj, ?_, hsp, hne⟩
        rw [show g + (j + 1) = g + 1 + j by omega]
        exact hrep

theorem subGroups_agree (fm : String → List String → String)
    (toSentence : List String → String → String)
    (checkPOS : Nat × Nat → String → List Char → Bool)
    (txt : List Char) (chk : Substitution) (repl : List String) :
    ∀ (locs : List GroupLoc) (st : SubState) (g : Nat) (st' : SubState),
      subGroups fm toSentence checkPOS txt chk repl st g locs = some st' →
      (∀ j b e, locs.get? j = some (some (b, e)) →
        ∀ exp, repl.get? (g + j) = some exp →
          trimSpace (sliceStr txt b e) = exp) →
      st' = st := by
  intro locs
  induction locs with
  | nil =>
    intro st g st' h _
    rw [subGroups] at h
    cases h
    rfl
  | cons loc rest ih =>
    intro st g st' h hagree
    rw [subGroups] at h
    cases loc with
    | none =>
      rw [subStep] at h
      dsimp only at h
      have := ih st (g + 1) st' h fun j b e hj exp hrep =>
        hagree (j + 1) b e hj exp (by rw [show g + (j + 1) = g + 1 + j by omega]; exact hrep)
      exact this
    | some be =>
      obtain ⟨b, e⟩ := be
      rw [subStep] at h
      cases hr : repl.get? g with
      | none => rw [hr] at h; cases h
      | some expected =>
        rw [hr] at h
        dsimp only at h
        have heq : trimSpace (sliceStr txt b e) = expected :=
          hagree 0 b e rfl expected (by rw [Nat.add_zero]; exact hr)
        rw [if_neg (by rw [heq]; simp)] at h
        have := ih st (g + 1) st' h fun j b' e' hj exp hrep =>
          hagree (j + 1) b' e' hj exp
            (by rw [show g + (j + 1) = g + 1 + j by omega]; exact hrep)
        exact this

theorem subMats_alerts (fm : String → List String → String)
    (toSentence : List String → String → String)
    (checkPOS : Nat × Nat → String → List Char → Bool)
    (txt : List Char) (chk : Substitution) (repl : List String) :
    ∀ (ms : List (List GroupLoc)) (st : SubState) (st' : SubState),
      subMats fm toSentence checkPOS txt chk repl st ms = some st' →
      ∀ a ∈ st'.alerts, a ∈ st.alerts
        ∨ ∃ sm ∈ ms, ∃ g b e exp, sm.get? g = some (some (b, e)) ∧
            repl.get? g = some exp ∧ a.Span = ((b : Int), (e : Int)) ∧
            trimSpace (sliceStr txt b e) ≠ exp := by
  intro ms
  induction ms with
  | nil =>
    intro st st' h a ha
    rw [subMats] at h
    cases h
    exact Or.inl ha
  | cons sm rest ih =>
    intro st st' h a ha
    rw [subMats] at h
    cases hg : subGroups fm toSentence checkPOS txt chk repl st 0 sm with
    | none => rw [hg] at h; cases h
    | some st1 =>
      rw [hg] at h
      dsimp only at h
      rcases ih st1 st' h a ha with hmem | ⟨sm', hsm', rest'⟩
      · rcases subGroups_alerts fm toSentence checkPOS txt chk repl sm st 0 st1
          hg a hmem with hl | ⟨j, b, e, exp, hj, hrep, hsp, hne⟩
        · exact Or.inl hl
        · refine Or.inr ⟨sm, List.mem_cons_self _ _, j, b, e, exp, hj, ?_, hsp, hne⟩
          rw [Nat.zero_add] at hrep
          exact hrep
      · exact Or.inr ⟨sm', List.mem_cons_of_mem _ hsm', rest'⟩

theorem subMats_agree (fm : String → List String → String)
    (toSentence : List String → String → String)
    (checkPOS : Nat × Nat → String → List Char → Bool)
    (txt : List Char) (chk : Substitution) (repl : List String) :
    ∀ (ms : List (List GroupLoc)) (st : SubState) (st' : SubState),
      subMats fm toSentence checkPOS txt chk repl st ms = some st' →
      AllMatchesAgree txt ms repl →
      st' = st := by
  intro ms
  induction ms with
  | nil =>
    intro st st' h _
    rw [subMats] at h
    cases h
    rfl
  | cons sm rest ih =>
    intro st st' h hagree
    rw [subMats] at h
    cases hg : subGroups fm toSentence checkPOS txt chk repl st 0 sm with
    | none => rw [hg] at h; cases h
    | some st1 =>
      rw [hg] at h
      dsimp only at h
      have h1 : st1 = st :=
        subGroups_agree fm toSentence checkPOS txt chk repl sm st 0 st1 hg
          fun j b e hj exp hrep =>
            hagree sm (List.mem_cons_self _ _) j b e hj exp
              (by rw [Nat.zero_add] at hrep; exact hrep)
      subst h1
      exact ih st1 st' h fun sm' hsm' => hagree sm' (List.mem_cons_of_mem _ hsm')

/-- C10: checkSubstitution emits an alert for a capture-group match only
when the whitespace-trimmed matched text differs from that group's
configured replacement string: every returned alert carries such a
differing match, and when every match's trimmed text equals its
replacement exactly, no alert is produced. -/
theorem check_substitution_only_on_difference
    (fm : String → List String → String)
    (toSentence : List String → String → String)
    (checkPOS : Nat × Nat → String → List Char → Bool)
    (txt : List Char) (chk : Substitution)
    (submatches : List (List GroupLoc)) (repl : List String)
    (as : List Alert)
    (h : checkSubstitution fm toSentence checkPOS txt chk submatches repl =
      some as) :
    (∀ a ∈ as, FromDifferingMatch txt submatches repl a)
    ∧ (AllMatchesAgree txt submatches repl → as = []) := by
  rw [checkSubstitution] at h
  cases hm : subMats fm toSentence checkPOS txt chk repl
      { pos := false, action := chk.Action, alerts := [] } submatches with
  | none => rw [hm] at h; cases h
  | some stF =>
    rw [hm] at h
    rw [Option.map_some'] at h
    cases h
    constructor
    · intro a ha
      rcases subMats_alerts fm toSentence checkPOS txt chk repl submatches _
        stF hm a ha with hl | ⟨sm, hsm, g, b, e, exp, hj, hrep, hsp, hne⟩
      · exact absurd hl (List.not_mem_nil a)
      · exact ⟨sm, hsm, g, b, e, exp, hj, hrep, hsp, hne⟩
    · intro hagree
      have := subMats_agree fm toSentence checkPOS txt chk repl submatches _
        stF hm hagree
      rw [this]

/-- Witness for C10: on `The smart phone` with one capture-group match at
(4, 15) and replacement `smartphone`, the produced alert indeed comes
from a differing match; and on an agreeing match no alert is produced. -/
theorem check_substitution_only_on_difference_witness :
    FromDifferingMatch ("The smart phone").data [[some (4, 15)]]
      ["smartphone"] subWitnessAlert
    ∧ ∀ a ∈ ([] : List Alert), False :=
  ⟨(check_substitution_only_on_difference (fun m _ => m) (fun _ _ => "")
      (fun _ _ _ => false) ("The smart phone").data
      { Name := "Test.S", Level := "error", Message := "m" }
      [[some (4, 15)]] ["smartphone"] [subWitnessAlert] (by decide)).1
      subWitnessAlert (by decide),
   fun a ha => absurd ha (List.not_mem_nil a)⟩

end Vale
